import Mathlib

/-!
Verification of the ponder workspace file browser core: the tree model,
filter engine, expansion state, navigation controller and content
formatter, shallowly embedded from the TypeScript sources
(App.tsx, FileTree.tsx, FileViewer.tsx, lib/tauri.ts).
-/

/-- Variant type of a tree node, mirroring the TypeScript union
type of the field node_type, whose values are the strings "file" and "dir". -/
inductive NodeType where
  | file
  | dir
deriving DecidableEq, Repr

/-- Embedding of the TreeNode interface from lib/tauri.ts:
name, path, node_type, optional children (present only for directories),
optional size_bytes and is_too_large (present only for files). -/
inductive TreeNode where
  | mk (name : String) (path : String) (node_type : NodeType)
      (children : Option (List TreeNode)) (size_bytes : Option Nat)
      (is_too_large : Option Bool)

/-- Field accessor for the display name. -/
def TreeNode.name : TreeNode → String
  | .mk n _ _ _ _ _ => n

/-- Field accessor for the workspace-relative path. -/
def TreeNode.path : TreeNode → String
  | .mk _ p _ _ _ _ => p

/-- Field accessor for the node kind. -/
def TreeNode.node_type : TreeNode → NodeType
  | .mk _ _ nt _ _ _ => nt

/-- Field accessor for the optional children sequence. -/
def TreeNode.children : TreeNode → Option (List TreeNode)
  | .mk _ _ _ cs _ _ => cs

/-- Children of a node, with an absent children field read as the empty
sequence (the JavaScript code guards each use with a truthiness check). -/
def TreeNode.childList (t : TreeNode) : List TreeNode :=
  t.children.getD []

/-- Model of the JavaScript String.prototype.toLowerCase call, as a
character-wise lowering of the string's characters. -/
def lowerStr (s : String) : String :=
  String.mk (s.data.map Char.toLower)

/-- Test whether the pattern list occurs at the very start of the text list;
helper for the substring test below. -/
def matchesAt : List Char → List Char → Bool
  | [], _ => true
  | _ :: _, [] => false
  | a :: as, b :: bs => a = b && matchesAt as bs

/-- Test whether the pattern occurs contiguously anywhere in the text;
together with matchesAt this models JavaScript String.prototype.includes. -/
def hasSubstr : List Char → List Char → Bool
  | [], sub => matchesAt sub []
  | c :: tl, sub => matchesAt sub (c :: tl) || hasSubstr tl sub

/-- Model of the JavaScript call s.includes(sub): substring containment. -/
def strIncludes (s sub : String) : Bool :=
  hasSubstr s.data sub.data

/-- Case-insensitive substring test of the filter against a node's own name,
exactly the first test performed by nodeMatchesFilter in FileTree.tsx. -/
def nameMatches (node : TreeNode) (filterText : String) : Bool :=
  strIncludes (lowerStr node.name) (lowerStr filterText)

mutual
/-- Embedding of nodeMatchesFilter from FileTree.tsx: a node matches when
the lowered filter is a substring of its lowered name, or, when the node
has a children field, when some child matches recursively. -/
def nodeMatchesFilter (node : TreeNode) (filterText : String) : Bool :=
  match node with
  | .mk name _ _ children _ _ =>
    if strIncludes (lowerStr name) (lowerStr filterText) then true
    else
      match children with
      | some cs => anyChildMatches cs filterText
      | none => false

/-- Iteration of nodeMatchesFilter over a children list, the embedding of
the JavaScript call children.some(child => nodeMatchesFilter(child, filter)). -/
def anyChildMatches (cs : List TreeNode) (filterText : String) : Bool :=
  match cs with
  | [] => false
  | c :: rest => nodeMatchesFilter c filterText || anyChildMatches rest filterText
end

mutual
/-- Embedding of getPathsToExpand from FileTree.tsx: walk the tree and,
for every node whose children include a filter match, add that node's
current path (its own path, or the parent path when its path is the empty
string) and recurse into each matching child with the child's path as
parent path. The JavaScript loop accumulates into one mutable set; the
embedding forms the same set as a union of per-child contributions. -/
def getPathsToExpand (node : TreeNode) (filterText : String) (parentPath : String) : Finset String :=
  match node with
  | .mk _ path _ children _ _ =>
    match children with
    | some cs => childPathsToExpand cs filterText (if path = "" then parentPath else path)
    | none => ∅

/-- Per-child contributions of the getPathsToExpand loop body: a matching
child adds the enclosing directory's current path together with the whole
recursive result for that child. -/
def childPathsToExpand (cs : List TreeNode) (filterText : String) (currentPath : String) : Finset String :=
  match cs with
  | [] => ∅
  | child :: rest =>
    (if nodeMatchesFilter child filterText then
      insert currentPath (getPathsToExpand child filterText child.path)
    else ∅) ∪ childPathsToExpand rest filterText currentPath
end

/-- Embedding of the visibleChildren memo of TreeNodeItem in FileTree.tsx:
no children yields the empty list, an empty filter yields the children
unchanged, and a non-empty filter keeps exactly the matching children in
their original order. -/
def visibleChildren (node : TreeNode) (searchFilter : String) : List TreeNode :=
  match node.children with
  | none => []
  | some cs =>
    if searchFilter = "" then cs
    else cs.filter (fun child => nodeMatchesFilter child searchFilter)

mutual
/-- List of every node of a tree (the node itself and, recursively, the
nodes of all its children), used to quantify over the nodes of a tree. -/
def allNodes (t : TreeNode) : List TreeNode :=
  match t with
  | .mk name path nt children sb tl =>
    .mk name path nt children sb tl ::
      (match children with
       | some cs => allNodesList cs
       | none => [])

/-- Concatenation of allNodes over a list of trees. -/
def allNodesList (cs : List TreeNode) : List TreeNode :=
  match cs with
  | [] => []
  | c :: rest => allNodes c ++ allNodesList rest
end

/-- Nodes strictly below the root of a tree. -/
def descendantNodes (t : TreeNode) : List TreeNode :=
  allNodesList t.childList

/-- Well-formedness of a tree, following the data-model invariants:
paths are unique across the tree, a children field is present only on
directory nodes, and only the root's path may be the empty string. -/
def wellFormed (t : TreeNode) : Prop :=
  ((allNodes t).map TreeNode.path).Nodup
  ∧ (∀ m ∈ allNodes t, m.children.isSome = true → m.node_type = NodeType.dir)
  ∧ (∀ m ∈ descendantNodes t, m.path ≠ "")

-- Basic unfolding and membership lemmas.

theorem allNodes_eq (t : TreeNode) :
    allNodes t = t :: allNodesList t.childList := by
  cases t with
  | mk name path nt children sb tl =>
    cases children <;> rfl

theorem mem_allNodesList {x : TreeNode} {cs : List TreeNode} :
    x ∈ allNodesList cs ↔ ∃ c ∈ cs, x ∈ allNodes c := by
  induction cs with
  | nil => simp [allNodesList]
  | cons c rest ih =>
    simp [allNodesList, List.mem_append, ih, List.mem_cons]

theorem self_mem_allNodes (t : TreeNode) : t ∈ allNodes t := by
  rw [allNodes_eq]; exact List.mem_cons_self t _

theorem mem_allNodes_of_child {t c x : TreeNode}
    (hc : c ∈ t.childList) (hx : x ∈ allNodes c) : x ∈ allNodes t := by
  rw [allNodes_eq]
  exact List.mem_cons_of_mem _ (mem_allNodesList.mpr ⟨c, hc, hx⟩)

theorem anyChildMatches_eq (cs : List TreeNode) (f : String) :
    anyChildMatches cs f = cs.any (fun c => nodeMatchesFilter c f) := by
  induction cs with
  | nil => rfl
  | cons c rest ih => simp [anyChildMatches, ih, List.any_cons]

theorem nodeMatchesFilter_eq (t : TreeNode) (f : String) :
    nodeMatchesFilter t f
      = (nameMatches t f || t.childList.any (fun c => nodeMatchesFilter c f)) := by
  cases t with
  | mk name path nt children sb tl =>
    cases children with
    | none =>
      have h1 : nodeMatchesFilter (TreeNode.mk name path nt none sb tl) f
          = (if strIncludes (lowerStr name) (lowerStr f) = true then true else false) := rfl
      rw [h1]
      cases hs : strIncludes (lowerStr name) (lowerStr f) <;>
        simp [hs, nameMatches, TreeNode.name, TreeNode.childList, TreeNode.children]
    | some cs =>
      have h1 : nodeMatchesFilter (TreeNode.mk name path nt (some cs) sb tl) f
          = (if strIncludes (lowerStr name) (lowerStr f) = true then true
             else anyChildMatches cs f) := rfl
      rw [h1, anyChildMatches_eq]
      cases hs : strIncludes (lowerStr name) (lowerStr f) <;>
        simp [hs, nameMatches, TreeNode.name, TreeNode.childList, TreeNode.children]

theorem strIncludes_empty_pattern (s : String) : strIncludes s "" = true := by
  cases s with
  | mk data =>
    show hasSubstr data [] = true
    cases data with
    | nil => rfl
    | cons c tl => rfl

theorem nameMatches_empty (t : TreeNode) : nameMatches t "" = true := by
  simp only [nameMatches]
  rw [show lowerStr "" = "" from rfl]
  exact strIncludes_empty_pattern _

theorem nodeMatchesFilter_empty (t : TreeNode) : nodeMatchesFilter t "" = true := by
  rw [nodeMatchesFilter_eq, nameMatches_empty, Bool.true_or]

theorem mem_childPathsToExpand {x : String} {cs : List TreeNode} {f cp : String} :
    x ∈ childPathsToExpand cs f cp
      ↔ ∃ ch ∈ cs, nodeMatchesFilter ch f = true
          ∧ (x = cp ∨ x ∈ getPathsToExpand ch f ch.path) := by
  induction cs with
  | nil => simp [childPathsToExpand]
  | cons c rest ih =>
    have h1 : childPathsToExpand (c :: rest) f cp
        = (if nodeMatchesFilter c f = true then
            insert cp (getPathsToExpand c f c.path)
          else ∅) ∪ childPathsToExpand rest f cp := rfl
    rw [h1]
    by_cases h : nodeMatchesFilter c f = true
    · simp only [if_pos h, Finset.mem_union, Finset.mem_insert, ih, List.mem_cons]
      constructor
      · rintro ((rfl | hx) | ⟨ch, hch, hm, hx⟩)
        · exact ⟨c, Or.inl rfl, h, Or.inl rfl⟩
        · exact ⟨c, Or.inl rfl, h, Or.inr hx⟩
        · exact ⟨ch, Or.inr hch, hm, hx⟩
      · rintro ⟨ch, rfl | hch, hm, hx⟩
        · rcases hx with rfl | hx
          · exact Or.inl (Or.inl rfl)
          · exact Or.inl (Or.inr hx)
        · exact Or.inr ⟨ch, hch, hm, hx⟩
    · simp only [if_neg h, Finset.empty_union, ih, List.mem_cons]
      constructor
      · rintro ⟨ch, hch, hm, hx⟩
        exact ⟨ch, Or.inr hch, hm, hx⟩
      · rintro ⟨ch, rfl | hch, hm, hx⟩
        · exact absurd hm h
        · exact ⟨ch, hch, hm, hx⟩

theorem mem_getPathsToExpand {x : String} {t : TreeNode} {f p : String} :
    x ∈ getPathsToExpand t f p
      ↔ ∃ ch ∈ t.childList, nodeMatchesFilter ch f = true
          ∧ (x = (if t.path = "" then p else t.path)
              ∨ x ∈ getPathsToExpand ch f ch.path) := by
  cases t with
  | mk name path nt children sb tl =>
    cases children with
    | none =>
      have h1 : getPathsToExpand (TreeNode.mk name path nt none sb tl) f p = ∅ := rfl
      simp [h1, TreeNode.childList, TreeNode.children]
    | some cs =>
      have h1 : getPathsToExpand (TreeNode.mk name path nt (some cs) sb tl) f p
          = childPathsToExpand cs f (if path = "" then p else path) := rfl
      rw [h1]
      simp [mem_childPathsToExpand, TreeNode.childList, TreeNode.children, TreeNode.path]

theorem getPathsToExpand_root_call (t : TreeNode) (f : String) :
    getPathsToExpand t f "" = getPathsToExpand t f t.path := by
  cases t with
  | mk name path nt children sb tl =>
    cases children with
    | none => rfl
    | some cs =>
      have h1 : getPathsToExpand (TreeNode.mk name path nt (some cs) sb tl) f ""
          = childPathsToExpand cs f (if path = "" then "" else path) := rfl
      have h2 : getPathsToExpand (TreeNode.mk name path nt (some cs) sb tl) f
            (TreeNode.mk name path nt (some cs) sb tl).path
          = childPathsToExpand cs f (if path = "" then path else path) := rfl
      rw [h1, h2]
      by_cases hp : path = "" <;> simp [hp]

theorem sizeOf_lt_of_mem_childList {c t : TreeNode} (h : c ∈ t.childList) :
    sizeOf c < sizeOf t := by
  cases t with
  | mk name path nt children sb tl =>
    cases children with
    | none => simp [TreeNode.childList, TreeNode.children] at h
    | some cs =>
      simp only [TreeNode.childList, TreeNode.children, Option.getD] at h
      have h2 := List.sizeOf_lt_of_mem h
      simp only [TreeNode.mk.sizeOf_spec, Option.some.sizeOf_spec]
      omega

/-- Induction over a tree from the induction hypotheses at its children,
packaged as a recursion principle for the nested TreeNode type. -/
def TreeNode.strongInd {motive : TreeNode → Prop}
    (h : ∀ t : TreeNode, (∀ c ∈ t.childList, motive c) → motive t) :
    ∀ t, motive t := fun t =>
  h t (fun c hc => TreeNode.strongInd h c)
termination_by t => sizeOf t
decreasing_by exact sizeOf_lt_of_mem_childList hc

theorem visibleChildren_subset {c t : TreeNode} {f : String}
    (h : c ∈ visibleChildren t f) : c ∈ t.childList := by
  rcases ht : t.children with _ | cs
  · simp only [visibleChildren, ht] at h
    exact absurd h (List.not_mem_nil c)
  · simp only [visibleChildren, ht] at h
    simp only [TreeNode.childList, ht, Option.getD]
    by_cases hf : f = ""
    · rwa [if_pos hf] at h
    · rw [if_neg hf] at h
      exact (List.mem_filter.mp h).1

theorem mem_visibleChildren {t c : TreeNode} {f : String} (hc : c ∈ t.childList)
    (hm : f = "" ∨ nodeMatchesFilter c f = true) : c ∈ visibleChildren t f := by
  rcases ht : t.children with _ | cs
  · rw [TreeNode.childList, ht] at hc
    exact absurd hc (List.not_mem_nil c)
  · rw [TreeNode.childList, ht] at hc
    simp only [visibleChildren, ht]
    by_cases hf : f = ""
    · rwa [if_pos hf]
    · rw [if_neg hf]
      rcases hm with rfl | hm
      · exact absurd rfl hf
      · exact List.mem_filter.mpr ⟨hc, hm⟩

/-- Embedding of the rendering of TreeNodeItem in FileTree.tsx at depth
at least one: the node renders as a row, and, when it is a directory whose
path is in the expansion set and it has at least one visible child, the
visible children render beneath it recursively. -/
def renderedRows (node : TreeNode) (expandedPaths : Finset String) (searchFilter : String) :
    List TreeNode :=
  node ::
    (if node.node_type = NodeType.dir ∧ node.path ∈ expandedPaths
        ∧ 0 < (visibleChildren node searchFilter).length then
      ((visibleChildren node searchFilter).attach.map
        (fun c => renderedRows c.1 expandedPaths searchFilter)).flatten
    else [])
termination_by sizeOf node
decreasing_by exact sizeOf_lt_of_mem_childList (visibleChildren_subset c.2)

theorem renderedRows_eq (node : TreeNode) (S : Finset String) (f : String) :
    renderedRows node S f
      = node ::
          (if node.node_type = NodeType.dir ∧ node.path ∈ S
              ∧ 0 < (visibleChildren node f).length then
            ((visibleChildren node f).map (fun c => renderedRows c S f)).flatten
          else []) := by
  rw [renderedRows]
  congr 1
  by_cases h : node.node_type = NodeType.dir ∧ node.path ∈ S
      ∧ 0 < (visibleChildren node f).length
  · rw [if_pos h, if_pos h]
    exact congrArg List.flatten
      (List.attach_map_val (visibleChildren node f) (fun c => renderedRows c S f))
  · rw [if_neg h, if_neg h]

/-- Embedding of the depth-zero rendering in FileTree.tsx: for a directory
root the visible children render directly (the root itself is not a row and
needs no expansion-set membership); any other root renders as an ordinary
node. -/
def visibleRows (tree : TreeNode) (expandedPaths : Finset String) (searchFilter : String) :
    List TreeNode :=
  if tree.node_type = NodeType.dir then
    ((visibleChildren tree searchFilter).map
      (fun c => renderedRows c expandedPaths searchFilter)).flatten
  else renderedRows tree expandedPaths searchFilter

theorem nmf_propagate (F : String) (t : TreeNode) :
    ∀ n ∈ allNodes t, nameMatches n F = true → nodeMatchesFilter t F = true := by
  induction t using TreeNode.strongInd with
  | h t ih =>
    intro n hn hname
    rw [allNodes_eq, List.mem_cons] at hn
    rcases hn with rfl | hn
    · rw [nodeMatchesFilter_eq, hname, Bool.true_or]
    · rcases mem_allNodesList.mp hn with ⟨c, hc, hnc⟩
      have hcm : nodeMatchesFilter c F = true := ih c hc n hnc hname
      rw [nodeMatchesFilter_eq]
      have : t.childList.any (fun c => nodeMatchesFilter c F) = true :=
        List.any_eq_true.mpr ⟨c, hc, hcm⟩
      rw [this, Bool.or_true]

theorem nmf_exists (F : String) (t : TreeNode) :
    nodeMatchesFilter t F = true → ∃ n ∈ allNodes t, nameMatches n F = true := by
  induction t using TreeNode.strongInd with
  | h t ih =>
    intro hm
    rw [nodeMatchesFilter_eq, Bool.or_eq_true] at hm
    rcases hm with hm | hm
    · exact ⟨t, self_mem_allNodes t, hm⟩
    · rcases List.any_eq_true.mp hm with ⟨c, hc, hcm⟩
      rcases ih c hc hcm with ⟨n, hn, hname⟩
      exact ⟨n, mem_allNodes_of_child hc hn, hname⟩

theorem reach_aux (F : String) (t : TreeNode) :
    (∀ m ∈ allNodes t, m.children.isSome = true → m.node_type = NodeType.dir) →
    ∀ S : Finset String, getPathsToExpand t F t.path ⊆ S →
    ∀ n ∈ allNodes t, n.node_type = NodeType.file → nameMatches n F = true →
    n ∈ renderedRows t S F := by
  induction t using TreeNode.strongInd with
  | h t ih =>
    intro hdirs S hsub n hn hfile hname
    rw [allNodes_eq, List.mem_cons] at hn
    rcases hn with rfl | hn
    · rw [renderedRows_eq]
      exact List.mem_cons_self _ _
    · rcases mem_allNodesList.mp hn with ⟨ch, hch, hnch⟩
      have hchm : nodeMatchesFilter ch F = true := nmf_propagate F ch n hnch hname
      have hsome : t.children.isSome = true := by
        rcases ht : t.children with _ | cs
        · rw [TreeNode.childList, ht] at hch
          exact absurd hch (List.not_mem_nil _)
        · rfl
      have hdir : t.node_type = NodeType.dir := hdirs t (self_mem_allNodes t) hsome
      have hvc : ch ∈ visibleChildren t F := mem_visibleChildren hch (Or.inr hchm)
      have hpathS : t.path ∈ S := by
        apply hsub
        rw [mem_getPathsToExpand]
        exact ⟨ch, hch, hchm, Or.inl (ite_self t.path).symm⟩
      have hsub2 : getPathsToExpand ch F ch.path ⊆ S := by
        intro x hx
        apply hsub
        rw [mem_getPathsToExpand]
        exact ⟨ch, hch, hchm, Or.inr hx⟩
      have hdirs2 : ∀ m ∈ allNodes ch, m.children.isSome = true → m.node_type = NodeType.dir :=
        fun m hm => hdirs m (mem_allNodes_of_child hch hm)
      have hrec : n ∈ renderedRows ch S F := ih ch hch hdirs2 S hsub2 n hnch hfile hname
      rw [renderedRows_eq]
      refine List.mem_cons_of_mem _ ?_
      rw [if_pos ⟨hdir, hpathS, List.length_pos.mpr (List.ne_nil_of_mem hvc)⟩,
        List.mem_flatten]
      exact ⟨renderedRows ch S F, List.mem_map.mpr ⟨ch, hvc, rfl⟩, hrec⟩

theorem reach_root (F : String) (tree : TreeNode)
    (hdirs : ∀ m ∈ allNodes tree, m.children.isSome = true → m.node_type = NodeType.dir) :
    ∀ n ∈ allNodes tree, n.node_type = NodeType.file → nameMatches n F = true →
    n ∈ visibleRows tree (getPathsToExpand tree F "") F := by
  intro n hn hfile hname
  rw [allNodes_eq, List.mem_cons] at hn
  by_cases hroot : tree.node_type = NodeType.dir
  · rcases hn with rfl | hn
    · rw [hroot] at hfile
      exact absurd hfile (by intro h; cases h)
    · rcases mem_allNodesList.mp hn with ⟨ch, hch, hnch⟩
      have hchm : nodeMatchesFilter ch F = true := nmf_propagate F ch n hnch hname
      have hvc : ch ∈ visibleChildren tree F := mem_visibleChildren hch (Or.inr hchm)
      have hsub2 : getPathsToExpand ch F ch.path ⊆ getPathsToExpand tree F "" := by
        intro x hx
        rw [mem_getPathsToExpand]
        exact ⟨ch, hch, hchm, Or.inr hx⟩
      have hdirs2 : ∀ m ∈ allNodes ch, m.children.isSome = true → m.node_type = NodeType.dir :=
        fun m hm => hdirs m (mem_allNodes_of_child hch hm)
      have hrec : n ∈ renderedRows ch (getPathsToExpand tree F "") F :=
        reach_aux F ch hdirs2 _ hsub2 n hnch hfile hname
      rw [visibleRows, if_pos hroot, List.mem_flatten]
      exact ⟨renderedRows ch (getPathsToExpand tree F "") F,
        List.mem_map.mpr ⟨ch, hvc, rfl⟩, hrec⟩
  · rcases hn with rfl | hn
    · rw [visibleRows, if_neg hroot, renderedRows_eq]
      exact List.mem_cons_self _ _
    · rcases mem_allNodesList.mp hn with ⟨ch, hch, hnch⟩
      have hsome : tree.children.isSome = true := by
        rcases ht : tree.children with _ | cs
        · rw [TreeNode.childList, ht] at hch
          exact absurd hch (List.not_mem_nil _)
        · rfl
      exact absurd (hdirs tree (self_mem_allNodes tree) hsome) hroot

theorem gpte_sound (F : String) (t : TreeNode) :
    ∀ p, p = "" ∨ p = t.path → ∀ x ∈ getPathsToExpand t F p,
      ∃ d ∈ allNodes t, d.path = x ∧ ∃ ch ∈ d.childList, nodeMatchesFilter ch F = true := by
  induction t using TreeNode.strongInd with
  | h t ih =>
    intro p hp x hx
    rw [mem_getPathsToExpand] at hx
    rcases hx with ⟨ch, hch, hm, hx | hx⟩
    · have hcur : (if t.path = "" then p else t.path) = t.path := by
        rcases hp with rfl | rfl
        · by_cases h0 : t.path = "" <;> simp [h0]
        · rw [ite_self]
      exact ⟨t, self_mem_allNodes t, by rw [hx, hcur], ch, hch, hm⟩
    · rcases ih ch hch ch.path (Or.inr rfl) x hx with ⟨d, hd, hdp, hc⟩
      exact ⟨d, mem_allNodes_of_child hch hd, hdp, hc⟩

theorem isSome_of_mem_childList {c t : TreeNode} (h : c ∈ t.childList) :
    t.children.isSome = true := by
  rcases ht : t.children with _ | cs
  · rw [TreeNode.childList, ht] at h
    exact absurd h (List.not_mem_nil _)
  · rfl

mutual
/-- Specification-side matching predicate, written from the spec's words:
a node matches when the filter is a case-insensitive substring of its own
name, or when the node is a Directory and some descendant matches
recursively; used to compare with the implementation nodeMatchesFilter. -/
def matchesSpec (node : TreeNode) (filterText : String) : Bool :=
  match node with
  | .mk name _ nt children _ _ =>
    strIncludes (lowerStr name) (lowerStr filterText)
    || (decide (nt = NodeType.dir) &&
        (match children with
         | some cs => anySpecMatch cs filterText
         | none => false))

/-- Iteration of matchesSpec over a children list. -/
def anySpecMatch (cs : List TreeNode) (filterText : String) : Bool :=
  match cs with
  | [] => false
  | c :: rest => matchesSpec c filterText || anySpecMatch rest filterText
end

theorem anySpecMatch_eq (cs : List TreeNode) (f : String) :
    anySpecMatch cs f = cs.any (fun c => matchesSpec c f) := by
  induction cs with
  | nil => rfl
  | cons c rest ih => simp [anySpecMatch, ih, List.any_cons]

theorem listAny_congr {α : Type} {p q : α → Bool} :
    ∀ {l : List α}, (∀ x ∈ l, p x = q x) → l.any p = l.any q := by
  intro l
  induction l with
  | nil => intro _; rfl
  | cons x rest ih =>
    intro h
    simp only [List.any_cons, h x (List.mem_cons_self x rest),
      ih (fun y hy => h y (List.mem_cons_of_mem x hy))]

theorem matchesSpec_eq_aux (f : String) (t : TreeNode) :
    (∀ m ∈ allNodes t, m.children.isSome = true → m.node_type = NodeType.dir) →
    nodeMatchesFilter t f = matchesSpec t f := by
  induction t using TreeNode.strongInd with
  | h t ih =>
    intro hd
    rw [nodeMatchesFilter_eq]
    cases t with
    | mk name path nt children sb tl =>
      cases children with
      | none =>
        have h1 : matchesSpec (TreeNode.mk name path nt none sb tl) f
            = (strIncludes (lowerStr name) (lowerStr f)
               || (decide (nt = NodeType.dir) && false)) := rfl
        rw [h1]
        simp [nameMatches, TreeNode.name, TreeNode.childList, TreeNode.children]
      | some cs =>
        have h1 : matchesSpec (TreeNode.mk name path nt (some cs) sb tl) f
            = (strIncludes (lowerStr name) (lowerStr f)
               || (decide (nt = NodeType.dir) && anySpecMatch cs f)) := rfl
        have hcl : (TreeNode.mk name path nt (some cs) sb tl).childList = cs := rfl
        have hnt : nt = NodeType.dir := by
          have := hd (TreeNode.mk name path nt (some cs) sb tl)
            (self_mem_allNodes _) (by rfl)
          exact this
        have h3 : ∀ c ∈ cs, nodeMatchesFilter c f = matchesSpec c f := by
          intro c hc
          refine ih c (by rw [hcl]; exact hc) ?_
          intro m hm hms
          exact hd m (mem_allNodes_of_child (by rw [hcl]; exact hc) hm) hms
        rw [h1, anySpecMatch_eq, hcl, hnt, listAny_congr h3]
        simp [nameMatches, TreeNode.name]

-- Concrete trees used as witnesses and counterexamples.

/-- Example file node src/a.ts. -/
def fileA : TreeNode := .mk "a.ts" "src/a.ts" NodeType.file none (some 5) (some false)

/-- Example directory node src containing a.ts. -/
def dirSrc : TreeNode := .mk "src" "src" NodeType.dir (some [fileA]) none none

/-- Example file node readme.md at the top level. -/
def fileReadme : TreeNode := .mk "readme.md" "readme.md" NodeType.file none (some 3) (some false)

/-- Example root directory holding dirSrc and fileReadme. -/
def rootTree : TreeNode := .mk "root" "" NodeType.dir (some [dirSrc, fileReadme]) none none

/-- Example root directory whose own name matches the filter s while no
descendant does. -/
def rootNameOnly : TreeNode :=
  .mk "src" "" NodeType.dir (some [.mk "a.md" "a.md" NodeType.file none (some 1) (some false)]) none none

/-- C5 counterexample: in rootNameOnly a match for the non-empty filter s
exists in the tree (the root's own name matches, as nodeMatchesFilter
reports), yet the root's path is not in the computed expansion set, which
is empty; the claim that the root's path is present whenever any match
exists anywhere in the tree is false as stated. -/
theorem c5_counterexample :
    nodeMatchesFilter rootNameOnly "s" = true
    ∧ ("s" : String) ≠ ""
    ∧ rootNameOnly.path ∉ getPathsToExpand rootNameOnly "s" ""
    ∧ getPathsToExpand rootNameOnly "s" "" = ∅ := by
  refine ⟨by decide, by decide, by decide, by decide⟩

/-- C5 amended: for every well-formed tree and non-empty filter, every
file node whose name matches the filter case-insensitively appears among
the rows visible under the expansion set computed by getPathsToExpand;
every member of that set is the path of a directory with a matching
descendant; and the root's path is in the set whenever any node other
than the root itself has a matching name (equivalently, whenever some
strict descendant of the root matches). -/
theorem c5_expansion_reveals_matches (tree : TreeNode) (F : String)
    (hwf : wellFormed tree) (hF : F ≠ "") :
    (∀ n ∈ allNodes tree, n.node_type = NodeType.file → nameMatches n F = true →
        n ∈ visibleRows tree (getPathsToExpand tree F "") F)
    ∧ (∀ x ∈ getPathsToExpand tree F "",
        ∃ d ∈ allNodes tree, d.node_type = NodeType.dir ∧ d.path = x
          ∧ ∃ m ∈ descendantNodes d, nameMatches m F = true)
    ∧ ((∃ m ∈ descendantNodes tree, nameMatches m F = true) →
        tree.path ∈ getPathsToExpand tree F "") := by
  obtain ⟨hnodup, hdirs, hne⟩ := hwf
  refine ⟨reach_root F tree hdirs, ?_, ?_⟩
  · intro x hx
    rcases gpte_sound F tree "" (Or.inl rfl) x hx with ⟨d, hd, hdp, ch, hch, hm⟩
    refine ⟨d, hd, hdirs d hd (isSome_of_mem_childList hch), hdp, ?_⟩
    rcases nmf_exists F ch hm with ⟨m, hmch, hmname⟩
    exact ⟨m, mem_allNodesList.mpr ⟨ch, hch, hmch⟩, hmname⟩
  · rintro ⟨m, hm, hname⟩
    rcases mem_allNodesList.mp hm with ⟨ch, hch, hmch⟩
    have hchm : nodeMatchesFilter ch F = true := nmf_propagate F ch m hmch hname
    rw [mem_getPathsToExpand]
    refine ⟨ch, hch, hchm, Or.inl ?_⟩
    by_cases h0 : tree.path = "" <;> simp [h0]

/-- C5 witness: the amended theorem applied to the concrete tree rootTree
with the non-empty filter a, whose hypotheses hold by computation. -/
theorem c5_witness :
    wellFormed rootTree ∧ ("a" : String) ≠ ""
      ∧ (∀ n ∈ allNodes rootTree, n.node_type = NodeType.file → nameMatches n "a" = true →
          n ∈ visibleRows rootTree (getPathsToExpand rootTree "a" "") "a")
      ∧ (∀ x ∈ getPathsToExpand rootTree "a" "",
          ∃ d ∈ allNodes rootTree, d.node_type = NodeType.dir ∧ d.path = x
            ∧ ∃ m ∈ descendantNodes d, nameMatches m "a" = true)
      ∧ ((∃ m ∈ descendantNodes rootTree, nameMatches m "a" = true) →
          rootTree.path ∈ getPathsToExpand rootTree "a" "") := by
  have hwf : wellFormed rootTree := ⟨by decide, by decide, by decide⟩
  have h := c5_expansion_reveals_matches rootTree "a" hwf (by decide)
  exact ⟨hwf, by decide, h.1, h.2.1, h.2.2⟩

/-- C6: on every tree whose children fields occur only on directory nodes,
the implementation predicate nodeMatchesFilter agrees with the
specification predicate matchesSpec (case-insensitive substring on the own
name, or, for a directory, a recursive match of some descendant), and the
empty filter matches every node. -/
theorem c6_matches_characterization (node : TreeNode) (f : String)
    (h : ∀ m ∈ allNodes node, m.children.isSome = true → m.node_type = NodeType.dir) :
    nodeMatchesFilter node f = matchesSpec node f
    ∧ nodeMatchesFilter node "" = true :=
  ⟨matchesSpec_eq_aux f node h, nodeMatchesFilter_empty node⟩

/-- C6 witness: the characterization applied to the concrete tree rootTree
and filter a, with the directory-only-children hypothesis checked by
computation. -/
theorem c6_witness :
    (∀ m ∈ allNodes rootTree, m.children.isSome = true → m.node_type = NodeType.dir)
    ∧ nodeMatchesFilter rootTree "a" = matchesSpec rootTree "a"
    ∧ nodeMatchesFilter rootTree "" = true := by
  have hd : ∀ m ∈ allNodes rootTree, m.children.isSome = true → m.node_type = NodeType.dir := by
    decide
  have h := c6_matches_characterization rootTree "a" hd
  exact ⟨hd, h.1, h.2⟩

/-- C7: visibleChildren returns the children unchanged for the empty
filter, returns exactly the matching children for a non-empty filter, and
in every case is a sublist of the children, preserving their original
relative order. -/
theorem c7_visibleChildren_spec (node : TreeNode) (f : String) :
    visibleChildren node "" = node.childList
    ∧ (f ≠ "" → visibleChildren node f
        = node.childList.filter (fun c => nodeMatchesFilter c f))
    ∧ (visibleChildren node f).Sublist node.childList := by
  refine ⟨?_, ?_, ?_⟩
  · rcases ht : node.children with _ | cs
    · simp [visibleChildren, ht, TreeNode.childList]
    · simp [visibleChildren, ht, TreeNode.childList]
  · intro hf
    rcases ht : node.children with _ | cs
    · simp [visibleChildren, ht, TreeNode.childList]
    · simp [visibleChildren, ht, TreeNode.childList, if_neg hf]
  · rcases ht : node.children with _ | cs
    · simp [visibleChildren, ht, TreeNode.childList]
    · simp only [visibleChildren, ht, TreeNode.childList, Option.getD]
      by_cases hf : f = ""
      · rw [if_pos hf]
      · rw [if_neg hf]
        exact List.filter_sublist cs

/-- C7 witness: the filtering clause applied to the concrete rootTree with
the non-empty filter a. -/
theorem c7_witness :
    ("a" : String) ≠ ""
    ∧ visibleChildren rootTree "a"
        = rootTree.childList.filter (fun c => nodeMatchesFilter c "a") :=
  ⟨by decide, (c7_visibleChildren_spec rootTree "a").2.1 (by decide)⟩

/-- Embedding of toggleExpanded from FileTree.tsx: membership of the path
in the expansion set is flipped. -/
def toggleExpanded (expandedPaths : Finset String) (path : String) : Finset String :=
  if path ∈ expandedPaths then expandedPaths.erase path else insert path expandedPaths

/-- C9: toggling the same path twice restores the expansion set exactly,
so toggleExpanded is its own inverse. -/
theorem c9_toggle_involutive (S : Finset String) (p : String) :
    toggleExpanded (toggleExpanded S p) p = S := by
  by_cases h : p ∈ S
  · have h1 : toggleExpanded S p = S.erase p := if_pos h
    rw [h1, toggleExpanded, if_neg (Finset.not_mem_erase p S), Finset.insert_erase h]
  · have h1 : toggleExpanded S p = insert p S := if_neg h
    rw [h1, toggleExpanded, if_pos (Finset.mem_insert_self p S), Finset.erase_insert h]

/-- C10: on a well-formed tree every path in the computed expansion set is
the path of some directory node of the tree, and the path of a file node
is never in the set. -/
theorem c10_expansion_paths_are_dirs (tree : TreeNode) (F : String)
    (hwf : wellFormed tree) :
    (∀ x ∈ getPathsToExpand tree F "",
        ∃ d ∈ allNodes tree, d.node_type = NodeType.dir ∧ d.path = x)
    ∧ (∀ n ∈ allNodes tree, n.node_type = NodeType.file →
        n.path ∉ getPathsToExpand tree F "") := by
  obtain ⟨hnodup, hdirs, hne⟩ := hwf
  have hfst : ∀ x ∈ getPathsToExpand tree F "",
      ∃ d ∈ allNodes tree, d.node_type = NodeType.dir ∧ d.path = x := by
    intro x hx
    rcases gpte_sound F tree "" (Or.inl rfl) x hx with ⟨d, hd, hdp, ch, hch, hm⟩
    exact ⟨d, hd, hdirs d hd (isSome_of_mem_childList hch), hdp⟩
  refine ⟨hfst, ?_⟩
  intro n hn hfile hmem
  rcases hfst n.path hmem with ⟨d, hd, hdir, hdp⟩
  have hdn : d = n := List.inj_on_of_nodup_map hnodup hd hn hdp
  rw [hdn, hfile] at hdir
  exact absurd hdir (by intro h; cases h)

/-- C10 witness: the theorem applied to the concrete well-formed tree
rootTree with filter a. -/
theorem c10_witness :
    wellFormed rootTree
    ∧ (∀ x ∈ getPathsToExpand rootTree "a" "",
        ∃ d ∈ allNodes rootTree, d.node_type = NodeType.dir ∧ d.path = x)
    ∧ (∀ n ∈ allNodes rootTree, n.node_type = NodeType.file →
        n.path ∉ getPathsToExpand rootTree "a" "") := by
  have hwf : wellFormed rootTree := ⟨by decide, by decide, by decide⟩
  have h := c10_expansion_paths_are_dirs rootTree "a" hwf
  exact ⟨hwf, h.1, h.2⟩

/-- Model of the JavaScript String.prototype.split call with a
single-character separator, over the character list of the string: n
separator occurrences yield n plus one (possibly empty) segments, with an
empty trailing segment kept after a final separator. -/
def splitOnChar (sep : Char) : List Char → List (List Char)
  | [] => [[]]
  | c :: rest =>
    let r := splitOnChar sep rest
    if c = sep then [] :: r else (c :: r.headD []) :: r.tail

theorem splitOnChar_ne_nil (sep : Char) : ∀ cs : List Char, splitOnChar sep cs ≠ [] := by
  intro cs
  cases cs with
  | nil => simp [splitOnChar]
  | cons c rest =>
    simp only [splitOnChar]
    by_cases h : c = sep <;> simp [h]

theorem splitOnChar_cons (sep c : Char) (rest : List Char) :
    splitOnChar sep (c :: rest)
      = if c = sep then [] :: splitOnChar sep rest
        else (c :: (splitOnChar sep rest).headD []) :: (splitOnChar sep rest).tail := rfl

theorem splitOnChar_append_sep (sep : Char) :
    ∀ xs : List Char, splitOnChar sep (xs ++ [sep]) = splitOnChar sep xs ++ [[]] := by
  intro xs
  induction xs with
  | nil => simp [splitOnChar]
  | cons x rest ih =>
    rw [List.cons_append, splitOnChar_cons, splitOnChar_cons]
    by_cases h : x = sep
    · rw [if_pos h, if_pos h, ih, List.cons_append]
    · rw [if_neg h, if_neg h, ih]
      rcases hr : splitOnChar sep rest with _ | ⟨g, gs⟩
      · exact absurd hr (splitOnChar_ne_nil sep rest)
      · rfl

/-- Model of the JavaScript call s.split(sep) for a one-character
separator string, producing strings again. -/
def jsSplit (s : String) (sep : Char) : List String :=
  (splitOnChar sep s.data).map String.mk

/-- Embedding of the extension-to-language lookup table of
getLanguageFromPath in FileViewer.tsx. -/
def languageMap (extension : String) : Option String :=
  match extension with
  | "js" => some "javascript"
  | "jsx" => some "javascript"
  | "ts" => some "typescript"
  | "tsx" => some "typescript"
  | "mjs" => some "javascript"
  | "cjs" => some "javascript"
  | "html" => some "html"
  | "htm" => some "html"
  | "css" => some "css"
  | "scss" => some "scss"
  | "less" => some "less"
  | "json" => some "json"
  | "yaml" => some "yaml"
  | "yml" => some "yaml"
  | "toml" => some "toml"
  | "xml" => some "xml"
  | "rs" => some "rust"
  | "py" => some "python"
  | "rb" => some "ruby"
  | "go" => some "go"
  | "sh" => some "shell"
  | "bash" => some "shell"
  | "zsh" => some "shell"
  | "md" => some "markdown"
  | "mdx" => some "markdown"
  | "gitignore" => some "gitignore"
  | "env" => some "dotenv"
  | _ => none

/-- Embedding of getLanguageFromPath in FileViewer.tsx: the path is split
on dots, the last segment is lowercased and looked up in the table, and a
missing table entry yields plaintext. -/
def getLanguageFromPath (path : String) : String :=
  match languageMap (lowerStr (String.mk ((splitOnChar '.' path.data).getLastD []))) with
  | some lang => lang
  | none => "plaintext"

/-- Embedding of the content formatting in the FileViewer body: the lines
are the raw text split on line feeds and the language tag is derived from
the path. -/
def format (path : String) (content : String) : List String × String :=
  (jsSplit content '\n', getLanguageFromPath path)

/-- C8 counterexample: the path rs contains no dot, so it has no
extension, yet getLanguageFromPath returns rust rather than the plaintext
label the claim requires for a missing extension: the dotless file name
itself is looked up in the table. -/
theorem c8_counterexample :
    ("rs".data.contains '.') = false
    ∧ getLanguageFromPath "rs" = "rust"
    ∧ getLanguageFromPath "rs" ≠ "plaintext" :=
  ⟨by decide, by decide, by decide⟩

/-- C8 amended: format splits the raw text on line-feed boundaries with a
trailing empty segment kept after a final line feed, the empty text yields
exactly one empty line, the language comes from looking up the lowercased
last dot-separated segment of the path (the whole lowercased name when the
path has no dot) in the fixed table with plaintext as the default, and the
example format of x.rs yields the rust label. -/
theorem c8_format_semantics (path raw : String) :
    (format path raw).2 = getLanguageFromPath path
    ∧ format path "" = ([""], getLanguageFromPath path)
    ∧ (format path (raw.push '\n')).1 = (format path raw).1 ++ [""]
    ∧ format "x.rs" "fn main() \x7b\x7d\n" = (["fn main() \x7b\x7d", ""], "rust")
    ∧ getLanguageFromPath "rs" = "rust" := by
  refine ⟨rfl, rfl, ?_, by decide, by decide⟩
  show (splitOnChar '\n' (raw.push '\n').data).map String.mk
      = (splitOnChar '\n' raw.data).map String.mk ++ [""]
  rw [String.data_push, splitOnChar_append_sep, List.map_append]
  rfl

/-- Embedding of the auto-expansion memo of the FileTree component: when
the local search filter is non-empty and a tree is present, the paths to
expand for the current filter are merged (by union) into the expansion
set; otherwise the set is left unchanged. -/
def autoExpandMerge (tree : Option TreeNode) (localSearchFilter : String)
    (expandedPaths : Finset String) : Finset String :=
  match tree with
  | some t =>
    if localSearchFilter = "" then expandedPaths
    else expandedPaths ∪ getPathsToExpand t localSearchFilter ""
  | none => expandedPaths

/-- C3 counterexample: applied directly to the concrete tree rootTree with
the empty filter string, getPathsToExpand is not the empty set (it holds
the root path, since every child matches the empty filter), so the claim
that it returns the empty set for an empty filter on any tree is false. -/
theorem c3_counterexample :
    getPathsToExpand rootTree "" "" ≠ ∅
    ∧ rootTree.path ∈ getPathsToExpand rootTree "" "" :=
  ⟨by decide, by decide⟩

theorem gpte_empty_complete (t : TreeNode) :
    ∀ d ∈ allNodes t, d.childList ≠ [] → d.path ∈ getPathsToExpand t "" t.path := by
  induction t using TreeNode.strongInd with
  | h t ih =>
    intro d hd hne
    rw [allNodes_eq, List.mem_cons] at hd
    rcases hd with rfl | hd
    · rcases hc : d.childList with _ | ⟨c, rest⟩
      · exact absurd hc hne
      · rw [mem_getPathsToExpand]
        refine ⟨c, by rw [hc]; exact List.mem_cons_self c rest,
          nodeMatchesFilter_empty c, Or.inl (ite_self d.path).symm⟩
    · rcases mem_allNodesList.mp hd with ⟨ch, hch, hdch⟩
      rw [mem_getPathsToExpand]
      exact ⟨ch, hch, nodeMatchesFilter_empty ch, Or.inr (ih ch hch d hdch hne)⟩

/-- C3 amended: the component merges no auto-expansion paths when the
filter is empty, because the memo invokes getPathsToExpand only for a
non-empty filter; getPathsToExpand itself, applied with the empty filter,
contains the path of every node of the tree having at least one child
(every child matches the empty filter), so it is not empty whenever the
root has a child. -/
theorem c3_empty_filter_no_merge (t : TreeNode) (ex : Finset String) :
    autoExpandMerge (some t) "" ex = ex
    ∧ autoExpandMerge none "" ex = ex
    ∧ (∀ d ∈ allNodes t, d.childList ≠ [] → d.path ∈ getPathsToExpand t "" "") := by
  refine ⟨rfl, rfl, ?_⟩
  intro d hd hne
  rw [getPathsToExpand_root_call]
  exact gpte_empty_complete t d hd hne

/-- C3 witness: the every-node clause of the amended theorem applied to
the concrete tree rootTree at the non-root directory dirSrc, whose
membership and non-empty children hold by construction. -/
theorem c3_witness :
    dirSrc ∈ allNodes rootTree
    ∧ dirSrc.childList ≠ []
    ∧ dirSrc.path ∈ getPathsToExpand rootTree "" "" :=
  ⟨mem_allNodes_of_child (List.mem_cons_self dirSrc [fileReadme]) (self_mem_allNodes dirSrc),
    List.cons_ne_nil fileA [],
    (c3_empty_filter_no_merge rootTree ∅).2.2 dirSrc
      (mem_allNodes_of_child (List.mem_cons_self dirSrc [fileReadme]) (self_mem_allNodes dirSrc))
      (List.cons_ne_nil fileA [])⟩

/-- Combined user-interface state of the App component of App.tsx together
with the component-local state of FileTree (the expansion set and the
local search filter), one field per useState hook. -/
structure AppState where
  workspacePath : Option String
  tree : Option TreeNode
  treeLoading : Bool
  treeError : Option String
  selectedFilePath : Option String
  fileContent : Option String
  fileLoading : Bool
  fileError : Option String
  expandedPaths : Finset String
  localSearchFilter : String

/-- Events of the single-threaded event loop: the synchronous prefix of
handleLoadTree up to the await of listTree (loadStart), the resolution of
that listing with a tree or an error (loadOk, loadErr), the synchronous
prefix of handleFileSelect up to the await of readTextFile (selectStart),
the resolution of that read (readOk, readErr), a directory toggle, and a
change of the search filter text. -/
inductive UiEvent where
  | loadStart (path : String)
  | loadOk (path : String) (t : TreeNode)
  | loadErr (path : String) (msg : String)
  | selectStart (relPath : String)
  | readOk (relPath : String) (content : String)
  | readErr (relPath : String) (msg : String)
  | toggle (path : String)
  | searchChange (value : String)

/-- Transition function translated from the handlers in App.tsx and
FileTree.tsx. loadStart performs the state updates handleLoadTree issues
before calling listTree; the expansion set is untouched because no handler
ever resets the FileTree component state. loadOk and loadErr run the
continuations after the await, applying the arriving result
unconditionally (the code carries no request token), and a newly arrived
tree re-runs the auto-expansion memo. selectStart mirrors the guard on a
missing workspace path and the updates before readTextFile; readOk and
readErr apply the arriving read result unconditionally. toggle and
searchChange are the FileTree interactions. -/
def step (s : AppState) (e : UiEvent) : AppState :=
  match e with
  | .loadStart path =>
    { s with
      treeLoading := true
      treeError := none
      tree := none
      workspacePath := some path
      selectedFilePath := none
      fileContent := none
      fileError := none }
  | .loadOk _ t =>
    { s with
      tree := some t
      treeLoading := false
      expandedPaths := autoExpandMerge (some t) s.localSearchFilter s.expandedPaths }
  | .loadErr _ msg =>
    { s with
      treeError := some msg
      treeLoading := false }
  | .selectStart relPath =>
    if s.workspacePath.getD "" = "" then s
    else
      { s with
        selectedFilePath := some relPath
        fileLoading := true
        fileError := none
        fileContent := none }
  | .readOk _ content =>
    { s with
      fileContent := some content
      fileLoading := false }
  | .readErr _ msg =>
    { s with
      fileError := some msg
      fileLoading := false }
  | .toggle path =>
    { s with expandedPaths := toggleExpanded s.expandedPaths path }
  | .searchChange value =>
    { s with
      localSearchFilter := value
      expandedPaths := autoExpandMerge s.tree value s.expandedPaths }

/-- Initial state given by the useState defaults of App.tsx and
FileTree.tsx. -/
def initState : AppState :=
  { workspacePath := none
    tree := none
    treeLoading := false
    treeError := none
    selectedFilePath := none
    fileContent := none
    fileLoading := false
    fileError := none
    expandedPaths := ∅
    localSearchFilter := "" }

/-- Run of a sequence of events from the initial state. -/
def runTrace (events : List UiEvent) : AppState :=
  events.foldl step initState

/-- Example tree returned by a listing of root A. -/
def treeA : TreeNode := .mk "rootA" "" NodeType.dir (some []) none none

/-- Example tree returned by a listing of root B. -/
def treeB : TreeNode := .mk "rootB" "" NodeType.dir (some []) none none

theorem treeA_ne_treeB : treeA ≠ treeB := by
  intro h
  injection h with h1 h2 h3 h4 h5 h6
  exact absurd h1 (by decide)

/-- C1 counterexample: load root a, receive its tree, expand the directory
src by a user toggle, then load root b. After the synchronous part of the
second load (before its listing is issued) the selection, the cached file
content and the file error are reset, but the expansion set is not the
empty set: nothing ever resets the FileTree expansion state, so the claim
that loadRoot resets the Expansion State is false. -/
theorem c1_counterexample :
    (runTrace [.loadStart "/a", .loadOk "/a" treeA, .toggle "src",
        .loadStart "/b"]).selectedFilePath = none
    ∧ (runTrace [.loadStart "/a", .loadOk "/a" treeA, .toggle "src",
        .loadStart "/b"]).fileContent = none
    ∧ (runTrace [.loadStart "/a", .loadOk "/a" treeA, .toggle "src",
        .loadStart "/b"]).fileError = none
    ∧ (runTrace [.loadStart "/a", .loadOk "/a" treeA, .toggle "src",
        .loadStart "/b"]).expandedPaths ≠ ∅ :=
  ⟨rfl, rfl, rfl, by decide⟩

/-- C1 amended: the synchronous prefix of handleLoadTree (the updates made
before the external listing call is issued) resets the selection, the
cached file content, the file error, the tree and the tree error, marks
the tree as loading and records the new workspace path, but leaves the
expansion set exactly as it was. -/
theorem c1_loadStart_resets (s : AppState) (path : String) :
    (step s (.loadStart path)).selectedFilePath = none
    ∧ (step s (.loadStart path)).fileContent = none
    ∧ (step s (.loadStart path)).fileError = none
    ∧ (step s (.loadStart path)).tree = none
    ∧ (step s (.loadStart path)).treeError = none
    ∧ (step s (.loadStart path)).treeLoading = true
    ∧ (step s (.loadStart path)).workspacePath = some path
    ∧ (step s (.loadStart path)).expandedPaths = s.expandedPaths :=
  ⟨rfl, rfl, rfl, rfl, rfl, rfl, rfl, rfl⟩

/-- C2 counterexample: load root A, then root B; B's listing resolves
first, A's listing resolves last. The final tree is A's, not B's: the
continuation applies whichever result arrives, so a stale listing for a
superseded root does overwrite the newer load and the last-root-wins claim
is false. -/
theorem c2_counterexample :
    (runTrace [.loadStart "A", .loadStart "B", .loadOk "B" treeB,
        .loadOk "A" treeA]).tree = some treeA
    ∧ treeA ≠ treeB :=
  ⟨rfl, treeA_ne_treeB⟩

/-- C2 amended: whichever listing result arrives last determines the tree
shown; after any sequence of events followed by the arrival of a listing
result carrying tree t, the state's tree is t and loading is finished.
Arrival order, not request order, wins. -/
theorem c2_last_arrival_wins (s : AppState) (events : List UiEvent)
    (path : String) (t : TreeNode) :
    ((events ++ [UiEvent.loadOk path t]).foldl step s).tree = some t
    ∧ ((events ++ [UiEvent.loadOk path t]).foldl step s).treeLoading = false := by
  rw [List.foldl_append]
  exact ⟨rfl, rfl⟩

/-- C4 counterexample: with a workspace loaded, select file x then file y;
y's read resolves first with its content, x's read resolves last. The
displayed content is x's even though y is the current selection, so the
claim that a stale read for a superseded selection is discarded is false. -/
theorem c4_counterexample :
    (runTrace [.loadStart "/w", .loadOk "/w" treeA, .selectStart "x",
        .selectStart "y", .readOk "y" "content-y",
        .readOk "x" "content-x"]).fileContent = some "content-x"
    ∧ (runTrace [.loadStart "/w", .loadOk "/w" treeA, .selectStart "x",
        .selectStart "y", .readOk "y" "content-y",
        .readOk "x" "content-x"]).selectedFilePath = some "y"
    ∧ (runTrace [.loadStart "/w", .loadOk "/w" treeA, .selectStart "x",
        .selectStart "y", .readOk "y" "content-y",
        .readOk "x" "content-x"]).fileLoading = false
    ∧ ("content-x" : String) ≠ "content-y" :=
  ⟨rfl, rfl, rfl, by decide⟩

/-- C4 amended: whichever read result arrives last determines the
displayed content; after any sequence of events followed by the arrival of
a read result carrying some content, the state holds that content and the
read is finished. Arrival order, not selection order, wins. -/
theorem c4_last_read_arrival_wins (s : AppState) (events : List UiEvent)
    (relPath content : String) :
    ((events ++ [UiEvent.readOk relPath content]).foldl step s).fileContent = some content
    ∧ ((events ++ [UiEvent.readOk relPath content]).foldl step s).fileLoading = false := by
  rw [List.foldl_append]
  exact ⟨rfl, rfl⟩
